import Mathlib

/-!
Verification of the client-side event-relevance core of the StarvIn feed.

Strings are modeled as `List Char`; nullable strings as `Option (List Char)`.
The JavaScript text pipeline (lowercasing, the ampersand substitution, the
punctuation replacement, whitespace collapsing, trimming, splitting on
whitespace runs, HTML-tag stripping and substring search) is embedded as
executable functions below.  Lowercasing is modeled on the ASCII range; every
character outside the kept class is handled identically by the model and the
source, since non-ASCII letters are replaced either way.

Three revisions of the feed component are embedded, one namespace each:
`Feed006` (the revision with `relevanceScore`), `Feed007` (the revision with
`matchesByInterests` and the `normalize` containing the ampersand rule), and
`Feed008` (the revision with the substring-based `matchesKeywords`).
-/

namespace StarvIn

/-- Character class of the JavaScript regex `\s` (whitespace). -/
def isJsWs (c : Char) : Bool :=
  let n := c.toNat
  n = 32 || n = 9 || n = 10 || n = 11 || n = 12 || n = 13 || n = 160 ||
  n = 5760 || (8192 ≤ n && n ≤ 8202) || n = 8232 || n = 8233 || n = 8239 ||
  n = 8287 || n = 12288 || n = 65279

/-- Character class `[a-z0-9]` of the normalizer's keep-regex. -/
def isLowerAlnum (c : Char) : Bool :=
  let n := c.toNat
  (97 ≤ n && n ≤ 122) || (48 ≤ n && n ≤ 57)

/-- Character class `[a-z0-9\s]`: the characters the regex
`[^a-z0-9\s]` does not touch. -/
def keepChar (c : Char) : Bool :=
  isLowerAlnum c || isJsWs c

/-- ASCII model of JavaScript `toLowerCase` on one character. -/
def toLowerChar (c : Char) : Char :=
  if 65 ≤ c.toNat && c.toNat ≤ 90 then Char.ofNat (c.toNat + 32) else c

/-- Model of `s.toLowerCase()`. -/
def lowerStr (s : List Char) : List Char :=
  s.map toLowerChar

/-- Model of `s.replace(/&/g, ' and ')`. -/
def ampSub : List Char → List Char
  | [] => []
  | c :: rest => (if c = '&' then [' ', 'a', 'n', 'd', ' '] else [c]) ++ ampSub rest

/-- Model of `s.replace(/[^a-z0-9\s]/g, ' ')`: every character outside the
kept class is replaced by a space. -/
def punctToSpace (s : List Char) : List Char :=
  s.map (fun c => if keepChar c then c else ' ')

/-- Run-collapsing state machine behind `collapseWs`; the flag records
whether the previous character belonged to a whitespace run. -/
def collapseWsAux : Bool → List Char → List Char
  | _, [] => []
  | inRun, c :: rest =>
    if isJsWs c then
      if inRun then collapseWsAux true rest
      else ' ' :: collapseWsAux true rest
    else c :: collapseWsAux false rest

/-- Model of `s.replace(/\s+/g, ' ')`: each maximal whitespace run becomes a
single space. -/
def collapseWs (s : List Char) : List Char :=
  collapseWsAux false s

/-- Remove trailing JavaScript whitespace. -/
def trimEnd (s : List Char) : List Char :=
  (s.reverse.dropWhile isJsWs).reverse

/-- Model of `s.trim()`. -/
def trimWs (s : List Char) : List Char :=
  trimEnd (s.dropWhile isJsWs)

/-- State machine behind `splitWs`; the flag records whether the previous
character belonged to a whitespace run, the accumulator holds the current
field reversed. -/
def splitWsAux : Bool → List Char → List Char → List (List Char)
  | _, acc, [] => [acc.reverse]
  | inRun, acc, c :: rest =>
    if isJsWs c then
      if inRun then splitWsAux true acc rest
      else acc.reverse :: splitWsAux true [] rest
    else splitWsAux false (c :: acc) rest

/-- Model of `s.split(/\s+/)` (so `splitWs [] = [[]]`, and a leading or
trailing whitespace run contributes an empty field, exactly as in
JavaScript). -/
def splitWs (s : List Char) : List (List Char) :=
  splitWsAux false [] s

/-- Tag-stripping state machine behind `stripTags`.  While inside a
candidate tag the pending characters are buffered (reversed); if the input
ends before a `>` appears the buffer is emitted literally, matching the
regex `/<[^>]*>/g`, which matches nothing there. -/
def stripTagsAux : Option (List Char) → List Char → List Char
  | none, [] => []
  | some buf, [] => buf.reverse
  | none, c :: rest =>
    if c = '<' then stripTagsAux (some ['<']) rest
    else c :: stripTagsAux none rest
  | some buf, c :: rest =>
    if c = '>' then ' ' :: stripTagsAux none rest
    else stripTagsAux (some (c :: buf)) rest

/-- Model of `s.replace(/<[^>]*>/g, ' ')`. -/
def stripTags (s : List Char) : List Char :=
  stripTagsAux none s

/-- Model of `stripHTML` (parts 006 and 007):
`(html ?? '').replace(/<[^>]*>/g, ' ').replace(/\s+/g, ' ').trim()`. -/
def stripHTML (html : Option (List Char)) : List Char :=
  trimWs (collapseWs (stripTags (html.getD [])))

/-- The character-level stage of the part 007 normalizer: lowercasing, the
ampersand substitution, then the punctuation-to-space replacement. -/
def charNormalize (s : List Char) : List Char :=
  punctToSpace (ampSub (lowerStr s))

/-- Model of `normalize` (part 007):
`(s ?? '').toLowerCase().replace(/&/g, ' and ').replace(/[^a-z0-9\s]/g, ' ')
.replace(/\s+/g, ' ').trim()`, on a non-null string. -/
def normalize (s : List Char) : List Char :=
  trimWs (collapseWs (charNormalize s))

/-- `normalize` applied to a nullable string: `(s ?? '')` first. -/
def normalizeOpt (s : Option (List Char)) : List Char :=
  normalize (s.getD [])

/-- Model of JavaScript `hay.includes(needle)`: substring containment. -/
def hasSubstring (needle : List Char) : List Char → Bool
  | [] => needle.isPrefixOf []
  | c :: t => needle.isPrefixOf (c :: t) || hasSubstring needle t

/-- Maximal runs of non-whitespace characters of a string, in order.  This
is the analysis view of a string used to state and prove properties of the
normalizer; it is not itself part of the source. -/
def chunks (s : List Char) : List (List Char) :=
  match s with
  | [] => []
  | c :: rest =>
    if isJsWs c then chunks rest
    else (c :: rest.takeWhile (fun x => !isJsWs x)) ::
         chunks (rest.dropWhile (fun x => !isJsWs x))
termination_by s.length
decreasing_by
  · simp only [List.length_cons]
    exact Nat.lt_succ_self _
  · have h : ∀ (l : List Char), (l.dropWhile (fun x => !isJsWs x)).length ≤ l.length := by
      intro l
      induction l with
      | nil => simp
      | cons x xs ih =>
        rw [List.dropWhile_cons]
        split
        · exact Nat.le_succ_of_le ih
        · exact Nat.le_refl _
    simp only [List.length_cons]
    exact Nat.lt_succ_of_le (h rest)

/-- Join word chunks with single spaces (the canonical form of a normalized
string). -/
def joinSp : List (List Char) → List Char
  | [] => []
  | [w] => w
  | w :: l => w ++ ' ' :: joinSp l

/-- An event record, as in the `Event` interfaces of the feed revisions.
The `date` field holds the parsed timestamp in milliseconds
(`new Date(e.date).getTime()`), with `none` standing for `NaN`. -/
structure Event where
  id : List Char
  title : List Char
  description : Option (List Char)
  event_type : Option (List Char)
  organization : Option (List Char)
  location : Option (List Char)
  date : Option Rat
  deadline : Option (List Char)
  image_url : Option (List Char)
  prize : Option (List Char)
  tags : Option (List (List Char))
  link : Option (List Char)

namespace Feed007

/-- The keyword taxonomy of part 007. -/
def CATEGORY_KEYWORDS : List (List Char × List (List Char)) := [
  ("Wellness & Mental Health".toList, [
    "wellness".toList, "mental health".toList, "therapy".toList, "yoga".toList,
    "stress".toList, "anxiety".toList, "mindfulness".toList,
    "student wellness hub".toList, "health support".toList, "meditation".toList,
    "relaxation".toList, "self-care".toList, "counseling".toList, "mental".toList,
    "support group".toList, "mental wellbeing".toList]),
  ("Career & Professional Development".toList, [
    "career".toList, "internship".toList, "job".toList, "resume".toList,
    "cv".toList, "networking".toList, "linkedin".toList,
    "career planning service".toList, "career advising".toList,
    "career fair".toList, "employability".toList, "industry".toList,
    "professional development".toList, "interview skills".toList,
    "graduate opportunities".toList, "skillsets".toList,
    "graduate workshops".toList, "apa citation".toList, "apa".toList,
    "productivity".toList, "time management".toList, "academic writing".toList,
    "study skills".toList, "communication skills".toList, "negotiation".toList,
    "graduate life".toList, "professional skills".toList,
    "writing workshop".toList, "career services".toList, "career prep".toList,
    "career readiness".toList, "graduate student".toList,
    "success strategies".toList]),
  ("Workshops & Skill Building".toList, [
    "workshop".toList, "training".toList, "skill building".toList,
    "tutorial".toList, "learning".toList, "skillsets".toList,
    "graduate workshops".toList, "academic skills".toList,
    "study skills".toList, "seminar".toList, "hands-on".toList]),
  ("Social & Community Events".toList, [
    "social".toList, "community".toList, "meetup".toList, "event".toList,
    "gathering".toList, "party".toList, "connect".toList,
    "student life".toList, "campus life".toList, "community event".toList,
    "peer network".toList, "hangout".toList, "mix and mingle".toList]),
  ("Arts & Creative Activities".toList, [
    "art".toList, "creative".toList, "craft".toList, "drawing".toList,
    "painting".toList, "film".toList, "music".toList, "photography".toList,
    "studio".toList, "gallery".toList, "design".toList, "writing".toList,
    "artistic".toList, "performance".toList]),
  ("Academic Support & Research".toList, [
    "academic".toList, "research".toList, "study".toList, "writing".toList,
    "library".toList, "thesis".toList, "citation".toList, "apa".toList,
    "study group".toList, "learning services".toList, "grad research".toList,
    "study tips".toList, "exam prep".toList]),
  ("International Student Services".toList, [
    "international".toList, "study permit".toList, "visa".toList,
    "iss".toList, "immigration".toList, "caq".toList,
    "global learning".toList, "international students".toList,
    "study abroad".toList, "intercultural".toList, "travel".toList,
    "exchange".toList]),
  ("Leadership & Personal Growth".toList, [
    "leadership".toList, "leader".toList, "development".toList,
    "growth".toList, "mindset".toList, "emerging leaders".toList,
    "motivation".toList, "confidence".toList, "public speaking".toList,
    "personal growth".toList, "imposter syndrome".toList,
    "self improvement".toList])]

/-- `CATEGORY_KEYWORDS[interest] ?? []`. -/
def keywordsFor (interest : List Char) : List (List Char) :=
  (CATEGORY_KEYWORDS.lookup interest).getD []

/-- The combined search text of `matchesByInterests` (part 007):
`normalize(` title, stripped description, event type, organization `)`. -/
def searchText (ev : Event) : List Char :=
  normalize (ev.title ++ ' ' :: stripHTML ev.description ++
    ' ' :: ev.event_type.getD [] ++ ' ' :: ev.organization.getD [])

/-- `normalize(ev.event_type)` of part 007. -/
def typeNorm (ev : Event) : List Char :=
  normalizeOpt ev.event_type

/-- Model of `matchesByInterests` (part 007): for some interest, either the
truthy normalized type contains the normalized interest as a substring, or
some keyword of the interest has every one of its words in the word list of
the combined search text. -/
def matchesByInterests (ev : Event) (interests : List (List Char)) : Bool :=
  interests.any (fun interest =>
    (!(typeNorm ev).isEmpty && hasSubstring (normalize interest) (typeNorm ev)) ||
    (keywordsFor interest).any (fun kw =>
      (splitWs (normalize kw)).all (fun w => (splitWs (searchText ev)).contains w)))

/-- The filtering decision of `loadEventsWithPreferences` (part 007): with
no interests the upcoming list is shown unfiltered, otherwise it is
filtered through `matchesByInterests`. -/
def selectFeedEvents (upcoming : List Event) (interests : List (List Char)) :
    List Event :=
  if interests.length = 0 then upcoming
  else upcoming.filter (fun ev => matchesByInterests ev interests)

end Feed007

namespace Feed006

/-- The keyword taxonomy of part 006. -/
def CATEGORY_KEYWORDS : List (List Char × List (List Char)) := [
  ("Career & Professional Development".toList, [
    "career".toList, "job".toList, "internship".toList, "resume".toList,
    "linkedin".toList, "network".toList, "employer".toList,
    "career planning".toList]),
  ("Wellness & Mental Health".toList, [
    "wellness".toList, "mental".toList, "therapy".toList, "stress".toList,
    "health".toList, "mindfulness".toList, "support".toList, "care".toList]),
  ("Workshops & Skill Building".toList, [
    "workshop".toList, "training".toList, "learn".toList, "skillsets".toList,
    "tutorial".toList, "seminar".toList, "session".toList]),
  ("Social & Community Events".toList, [
    "social".toList, "community".toList, "mixer".toList, "connect".toList,
    "meetup".toList, "hangout".toList]),
  ("International Student Services".toList, [
    "international".toList, "immigration".toList, "iss".toList,
    "visa".toList, "global".toList, "orientation".toList]),
  ("Leadership & Personal Growth".toList, [
    "leadership".toList, "mindset".toList, "growth".toList,
    "development".toList, "imposter".toList])]

/-- `CATEGORY_KEYWORDS[interest] ?? []` (part 006). -/
def keywordsFor (interest : List Char) : List (List Char) :=
  (CATEGORY_KEYWORDS.lookup interest).getD []

/-- Model of `normalize` (part 006): as in part 007 but without the
ampersand substitution. -/
def normalize (s : List Char) : List Char :=
  trimWs (collapseWs (punctToSpace (lowerStr s)))

/-- The combined search text of `relevanceScore` (part 006). -/
def searchText (ev : Event) : List Char :=
  normalize (ev.title ++ ' ' :: stripHTML ev.description ++
    ' ' :: ev.event_type.getD [] ++ ' ' :: ev.organization.getD [])

/-- The keyword-hit part of `relevanceScore` (part 006): 3 points for each
keyword of each interest whose normalized text occurs as a substring of the
combined search text. -/
def keywordScore (ev : Event) (interests : List (List Char)) : Rat :=
  interests.foldl (fun acc interest =>
    (keywordsFor interest).foldl (fun acc2 kw =>
      if hasSubstring (normalize kw) (searchText ev) then acc2 + 3 else acc2)
      acc) 0

/-- The recency bonus of `relevanceScore` (part 006):
`Math.max(0, 1e12 - (now - d)) / 1e12`. -/
def recencyBonus (now d : Rat) : Rat :=
  max 0 (1000000000000 - (now - d)) / 1000000000000

/-- Model of `relevanceScore` (part 006); `now` is `Date.now()`, and a
`none` date models the `Number.isNaN` guard, adding no bonus. -/
def relevanceScore (now : Rat) (ev : Event) (interests : List (List Char)) :
    Rat :=
  keywordScore ev interests +
    (match ev.date with
     | some d => recencyBonus now d
     | none => 0)

end Feed006

namespace Feed008

/-- The keyword taxonomy of part 008. -/
def CATEGORY_KEYWORDS : List (List Char × List (List Char)) := [
  ("Wellness & Mental Health".toList, [
    "wellness".toList, "mental health".toList, "therapy".toList,
    "yoga".toList, "stress".toList, "anxiety".toList, "support group".toList,
    "mindfulness".toList, "meditation".toList, "health".toList]),
  ("Career & Professional Development".toList, [
    "career".toList, "job".toList, "linkedin".toList, "internship".toList,
    "resume".toList, "professional".toList, "networking".toList,
    "employment".toList, "industry".toList]),
  ("Workshops & Skill Building".toList, [
    "workshop".toList, "skill".toList, "training".toList, "tutorial".toList,
    "learn".toList, "citation".toList, "skillsets".toList]),
  ("Social & Community Events".toList, [
    "social".toList, "community".toList, "meetup".toList, "party".toList,
    "event".toList, "gathering".toList, "connect".toList]),
  ("Arts & Creative Activities".toList, [
    "art".toList, "creative".toList, "studio".toList, "craft".toList,
    "artistic".toList, "hive".toList]),
  ("Academic Support & Research".toList, [
    "academic".toList, "research".toList, "library".toList, "phd".toList,
    "study".toList, "graduate".toList, "masters".toList]),
  ("International Student Services".toList, [
    "international".toList, "immigration".toList, "iss".toList,
    "visa".toList, "caq".toList, "legal".toList]),
  ("Leadership & Personal Growth".toList, [
    "leadership".toList, "leader".toList, "personal growth".toList,
    "emerging leaders".toList, "mindset".toList])]

/-- `CATEGORY_KEYWORDS[interest] || []` (part 008). -/
def keywordsFor (interest : List Char) : List (List Char) :=
  (CATEGORY_KEYWORDS.lookup interest).getD []

/-- The combined search text of `matchesKeywords` (part 008): the raw
fields joined by spaces and lowercased, with no HTML stripping and no
normalization. -/
def searchText (ev : Event) : List Char :=
  lowerStr (ev.title ++ ' ' :: ev.description.getD [] ++
    ' ' :: ev.event_type.getD [] ++ ' ' :: ev.organization.getD [])

/-- Model of `matchesKeywords` (part 008): some keyword of some interest,
lowercased, occurs as a substring of the lowercased search text. -/
def matchesKeywords (ev : Event) (interests : List (List Char)) : Bool :=
  interests.any (fun interest =>
    (keywordsFor interest).any (fun kw =>
      hasSubstring (lowerStr kw) (searchText ev)))

end Feed008

/-- An event with every field empty or absent. -/
def emptyEvent : Event :=
  ⟨[], [], none, none, none, none, none, none, none, none, none, none⟩

/-- An event titled "Smart City Tour" and otherwise empty. -/
def evSmart : Event :=
  ⟨[], "Smart City Tour".toList, none, none, none, none, none, none, none,
    none, none, none⟩

/-- An event whose categorical type is a wellness label and whose other
fields are empty. -/
def evWellnessType : Event :=
  ⟨[], [], none, some "Wellness & Mental Health".toList, none, none, none,
    none, none, none, none, none⟩

/-- An empty-text event dated at timestamp 0. -/
def evDate0 : Event :=
  ⟨[], [], none, none, none, none, some 0, none, none, none, none, none⟩

/-- An empty-text event dated at timestamp 2 * 10^12. -/
def evDateFar : Event :=
  ⟨[], [], none, none, none, none, some 2000000000000, none, none, none,
    none, none⟩

/-- An empty-text event dated at timestamp 5. -/
def evDate5 : Event :=
  ⟨[], [], none, none, none, none, some 5, none, none, none, none, none⟩

/-- An event with title "t", type "workshop" and one tag "yoga". -/
def evTagged : Event :=
  ⟨[], "t".toList, some [], some "workshop".toList, some [], none, none,
    none, none, none, some ["yoga".toList], none⟩

/-- An event with a yoga title, a location and tags. -/
def evYogaA : Event :=
  ⟨"1".toList, "Yoga Hour".toList, some "Relax".toList,
    some "Wellness Session".toList, some "SSMU".toList,
    some "Gym".toList, some 7, some "d".toList, some "img".toList,
    some "p".toList, some ["a".toList], some "l".toList⟩

/-- The same event as `evYogaA` on the four matched fields, with every
other field changed. -/
def evYogaB : Event :=
  ⟨"2".toList, "Yoga Hour".toList, some "Relax".toList,
    some "Wellness Session".toList, some "SSMU".toList,
    some "Pool".toList, some 9, none, none,
    none, some ["b".toList, "c".toList], none⟩

theorem not_ws_of_alnum {c : Char} (h : isLowerAlnum c = true) :
    isJsWs c = false := by
  simp only [isLowerAlnum, Bool.or_eq_true, Bool.and_eq_true,
    decide_eq_true_eq] at h
  simp only [isJsWs, Bool.or_eq_false_iff, Bool.and_eq_false_iff,
    decide_eq_false_iff_not]
  omega

theorem alnum_of_keep_not_ws {c : Char} (hk : keepChar c = true)
    (hw : isJsWs c = false) : isLowerAlnum c = true := by
  simp only [keepChar, Bool.or_eq_true] at hk
  rcases hk with h | h
  · exact h
  · rw [h] at hw
    exact absurd hw (by simp)

theorem toLowerChar_fix {c : Char} (h : isLowerAlnum c = true ∨ c = ' ') :
    toLowerChar c = c := by
  rcases h with h | h
  · simp only [isLowerAlnum, Bool.or_eq_true, Bool.and_eq_true,
      decide_eq_true_eq] at h
    have hb : (65 ≤ c.toNat && c.toNat ≤ 90) = false := by
      simp only [Bool.and_eq_false_iff, decide_eq_false_iff_not]
      omega
    simp [toLowerChar, hb]
  · subst h
    decide

theorem ne_amp_of_alnum_or_space {c : Char}
    (h : isLowerAlnum c = true ∨ c = ' ') : c ≠ '&' := by
  intro hc
  subst hc
  rcases h with h | h
  · exact absurd h (by decide)
  · exact absurd h (by decide)

theorem keep_of_alnum_or_space {c : Char}
    (h : isLowerAlnum c = true ∨ c = ' ') : keepChar c = true := by
  rcases h with h | h
  · simp [keepChar, h]
  · subst h
    decide

theorem collapseWsAux_true_eq (r : List Char) :
    collapseWsAux true r = collapseWs (r.dropWhile isJsWs) := by
  induction r with
  | nil => rfl
  | cons c r ih =>
    by_cases h : isJsWs c = true
    · rw [List.dropWhile_cons_of_pos h]
      rw [← ih]
      simp [collapseWsAux, h]
    · have h' : isJsWs c = false := by
        exact Bool.eq_false_iff.mpr h
      rw [List.dropWhile_cons_of_neg (by simp [h'])]
      simp [collapseWsAux, collapseWs, h']

theorem collapseWs_nil : collapseWs [] = [] := rfl

theorem collapseWs_cons_ws {c : Char} (h : isJsWs c = true) (r : List Char) :
    collapseWs (c :: r) = ' ' :: collapseWs (r.dropWhile isJsWs) := by
  show collapseWsAux false (c :: r) = _
  simp [collapseWsAux, h, collapseWsAux_true_eq]

theorem collapseWs_cons_nonws {c : Char} (h : isJsWs c = false)
    (r : List Char) : collapseWs (c :: r) = c :: collapseWs r := by
  show collapseWsAux false (c :: r) = _
  simp only [collapseWsAux, h]
  rfl

theorem collapseWs_nonws_append {p : List Char}
    (hp : ∀ x ∈ p, isJsWs x = false) (q : List Char) :
    collapseWs (p ++ q) = p ++ collapseWs q := by
  induction p with
  | nil => rfl
  | cons c p ih =>
    rw [List.cons_append, collapseWs_cons_nonws (hp c (by simp)),
      ih (fun x hx => hp x (by simp [hx]))]
    rfl

theorem dropWhile_eq_self_of {α : Type} {p : α → Bool} {l : List α}
    (h : ∀ x ∈ l, p x = false) : l.dropWhile p = l := by
  cases l with
  | nil => rfl
  | cons a t => exact List.dropWhile_cons_of_neg (by simp [h a (by simp)])

set_option maxHeartbeats 1000000 in
theorem chunks_nil : chunks [] = [] := by
  rw [chunks.eq_def]

set_option maxHeartbeats 1000000 in
theorem chunks_cons_ws {c : Char} (h : isJsWs c = true) (r : List Char) :
    chunks (c :: r) = chunks r := by
  rw [chunks.eq_def]
  simp [h]

set_option maxHeartbeats 1000000 in
theorem chunks_cons_nonws {c : Char} (h : isJsWs c = false) (r : List Char) :
    chunks (c :: r) =
      (c :: r.takeWhile (fun x => !isJsWs x)) ::
        chunks (r.dropWhile (fun x => !isJsWs x)) := by
  rw [chunks.eq_def]
  simp [h]

theorem chunks_dropWhile_ws (l : List Char) :
    chunks (l.dropWhile isJsWs) = chunks l := by
  induction l with
  | nil => rfl
  | cons c r ih =>
    by_cases h : isJsWs c = true
    · rw [List.dropWhile_cons_of_pos h, ih, chunks_cons_ws h]
    · rw [List.dropWhile_cons_of_neg (by simp [Bool.eq_false_iff.mpr h])]

theorem trimWs_nil : trimWs [] = [] := rfl

theorem trimWs_cons_ws {c : Char} (h : isJsWs c = true) (s : List Char) :
    trimWs (c :: s) = trimWs s := by
  show trimEnd ((c :: s).dropWhile isJsWs) = trimEnd (s.dropWhile isJsWs)
  rw [List.dropWhile_cons_of_pos h]

theorem trimEnd_nonws {l : List Char} (h : ∀ x ∈ l, isJsWs x = false) :
    trimEnd l = l := by
  show (l.reverse.dropWhile isJsWs).reverse = l
  rw [dropWhile_eq_self_of (fun x hx => h x (List.mem_reverse.mp hx)),
    List.reverse_reverse]

theorem trimWs_nonws {l : List Char} (h : ∀ x ∈ l, isJsWs x = false) :
    trimWs l = l := by
  show trimEnd (l.dropWhile isJsWs) = l
  rw [dropWhile_eq_self_of h]
  exact trimEnd_nonws h

theorem dropWhile_append_of_mem {α : Type} {p : α → Bool} {l₁ l₂ : List α}
    (h : ∃ x ∈ l₁, p x = false) :
    (l₁ ++ l₂).dropWhile p = l₁.dropWhile p ++ l₂ := by
  induction l₁ with
  | nil => simp at h
  | cons a l ih =>
    by_cases ha : p a = true
    · rw [List.cons_append, List.dropWhile_cons_of_pos ha,
        List.dropWhile_cons_of_pos ha]
      apply ih
      rcases h with ⟨x, hx, hpx⟩
      rcases List.mem_cons.mp hx with rfl | hx'
      · rw [ha] at hpx
        cases hpx
      · exact ⟨x, hx', hpx⟩
    · have ha' : ¬ (p a = true) := ha
      rw [List.cons_append, List.dropWhile_cons_of_neg ha',
        List.dropWhile_cons_of_neg ha']
      rfl

theorem takeWhile_append_of_mem {α : Type} {p : α → Bool} {l₁ l₂ : List α}
    (h : ∃ x ∈ l₁, p x = false) :
    (l₁ ++ l₂).takeWhile p = l₁.takeWhile p := by
  induction l₁ with
  | nil => simp at h
  | cons a l ih =>
    by_cases ha : p a = true
    · rw [List.cons_append, List.takeWhile_cons_of_pos ha,
        List.takeWhile_cons_of_pos ha]
      congr 1
      apply ih
      rcases h with ⟨x, hx, hpx⟩
      rcases List.mem_cons.mp hx with rfl | hx'
      · rw [ha] at hpx
        cases hpx
      · exact ⟨x, hx', hpx⟩
    · rw [List.cons_append, List.takeWhile_cons_of_neg ha,
        List.takeWhile_cons_of_neg ha]

theorem trimWs_append_left {A r : List Char} (hne : A ≠ [])
    (h : ∀ x ∈ A, isJsWs x = false) :
    trimWs (A ++ r) = A ++ trimEnd r := by
  rcases A with _ | ⟨a, A'⟩
  · exact absurd rfl hne
  · show trimEnd (((a :: A') ++ r).dropWhile isJsWs) = _
    rw [List.cons_append,
      List.dropWhile_cons_of_neg (by simp [h a (by simp)])]
    show ((a :: A' ++ r).reverse.dropWhile isJsWs).reverse = _
    rw [show a :: A' ++ r = (a :: A') ++ r from rfl, List.reverse_append]
    by_cases hr : ∃ x ∈ r.reverse, isJsWs x = false
    · rw [dropWhile_append_of_mem hr, List.reverse_append,
        List.reverse_reverse]
      rfl
    · push_neg at hr
      have hr' : r.reverse.dropWhile isJsWs = [] := by
        rw [List.dropWhile_eq_nil_iff]
        intro x hx
        have := hr x hx
        revert this
        cases isJsWs x <;> simp
      rw [List.dropWhile_append, hr']
      simp only [List.isEmpty_nil, if_true]
      have hA : ((a :: A').reverse).dropWhile isJsWs = (a :: A').reverse :=
        dropWhile_eq_self_of (fun x hx => h x (List.mem_reverse.mp hx))
      rw [hA, List.reverse_reverse]
      show _ = (a :: A') ++ (r.reverse.dropWhile isJsWs).reverse
      rw [hr']
      simp

theorem joinSp_cons_ne {w : List Char} {l : List (List Char)} (h : l ≠ []) :
    joinSp (w :: l) = w ++ ' ' :: joinSp l := by
  rcases l with _ | ⟨v, l'⟩
  · exact absurd rfl h
  · rfl

theorem length_dropWhile_le {α : Type} (p : α → Bool) (l : List α) :
    (l.dropWhile p).length ≤ l.length := by
  induction l with
  | nil => simp
  | cons x xs ih =>
    rw [List.dropWhile_cons]
    split
    · exact Nat.le_succ_of_le ih
    · exact Nat.le_refl _

theorem dropWhile_head_false {α : Type} {p : α → Bool} {l : List α}
    {a : α} {t : List α} (h : l.dropWhile p = a :: t) : p a = false := by
  induction l with
  | nil => simp at h
  | cons x xs ih =>
    rw [List.dropWhile_cons] at h
    by_cases hx : p x = true
    · rw [if_pos hx] at h
      exact ih h
    · have hx' : p x = false := Bool.eq_false_iff.mpr hx
      rw [if_neg (by simp [hx'])] at h
      cases h
      exact hx'

theorem trimEnd_cons_space_of_mem {Y : List Char}
    (h : ∃ x ∈ Y, isJsWs x = false) :
    trimEnd (' ' :: Y) = ' ' :: trimEnd Y := by
  show ((' ' :: Y).reverse.dropWhile isJsWs).reverse = _
  rw [List.reverse_cons,
    dropWhile_append_of_mem
      (by rcases h with ⟨x, hx, hfx⟩; exact ⟨x, List.mem_reverse.mpr hx, hfx⟩),
    List.reverse_append]
  rfl

theorem trimWs_eq_trimEnd_of_head {d : Char} {t : List Char}
    (h : isJsWs d = false) : trimWs (d :: t) = trimEnd (d :: t) := by
  show trimEnd ((d :: t).dropWhile isJsWs) = _
  rw [List.dropWhile_cons_of_neg (by simp [h])]

theorem trimWs_collapseWs (s : List Char) :
    trimWs (collapseWs s) = joinSp (chunks s) := by
  generalize hn : s.length = n
  induction n using Nat.strong_induction_on generalizing s with
  | _ n IH =>
    rcases s with _ | ⟨c, rest⟩
    · rw [collapseWs_nil, trimWs_nil, chunks_nil]
      rfl
    · simp only [List.length_cons] at hn
      by_cases hc : isJsWs c = true
      · rw [collapseWs_cons_ws hc, trimWs_cons_ws (by decide),
          chunks_cons_ws hc, ← chunks_dropWhile_ws rest]
        refine IH (rest.dropWhile isJsWs).length ?_ _ rfl
        have := length_dropWhile_le isJsWs rest
        omega
      · have hc' : isJsWs c = false := Bool.eq_false_iff.mpr hc
        have hrest : rest.takeWhile (fun x => !isJsWs x) ++
            rest.dropWhile (fun x => !isJsWs x) = rest :=
          List.takeWhile_append_dropWhile _ _
        have hpnonws : ∀ x ∈ rest.takeWhile (fun x => !isJsWs x),
            isJsWs x = false := by
          intro x hx
          have := List.mem_takeWhile_imp hx
          simpa using this
        have h1 : collapseWs rest =
            rest.takeWhile (fun x => !isJsWs x) ++
              collapseWs (rest.dropWhile (fun x => !isJsWs x)) := by
          conv_lhs => rw [← hrest]
          exact collapseWs_nonws_append hpnonws _
        rw [collapseWs_cons_nonws hc', h1, chunks_cons_nonws hc']
        have hcpnonws : ∀ x ∈ c :: rest.takeWhile (fun x => !isJsWs x),
            isJsWs x = false := by
          intro x hx
          rcases List.mem_cons.mp hx with rfl | hx'
          · exact hc'
          · exact hpnonws x hx'
        rcases hq : rest.dropWhile (fun x => !isJsWs x) with _ | ⟨w, q₂⟩
        · rw [collapseWs_nil, List.append_nil, chunks_nil]
          exact trimWs_nonws hcpnonws
        · have hw : isJsWs w = true := by
            have := dropWhile_head_false hq
            simpa using this
          have h4 : (rest.dropWhile (fun x => !isJsWs x)).length ≤
              rest.length := length_dropWhile_le _ rest
          rw [hq] at h4
          simp only [List.length_cons] at h4
          rw [collapseWs_cons_ws hw, chunks_cons_ws hw,
            ← chunks_dropWhile_ws q₂]
          show trimWs ((c :: rest.takeWhile (fun x => !isJsWs x)) ++
            ' ' :: collapseWs (q₂.dropWhile isJsWs)) = _
          rw [trimWs_append_left (by simp) hcpnonws]
          rcases hq3 : q₂.dropWhile isJsWs with _ | ⟨d, t⟩
          · rw [collapseWs_nil, chunks_nil,
              show trimEnd [' '] = [] from by decide]
            simp [joinSp]
          · have hd : isJsWs d = false := dropWhile_head_false hq3
            have hlen3 : (d :: t).length < n := by
              have h5 := length_dropWhile_le isJsWs q₂
              rw [hq3] at h5
              simp only [List.length_cons] at h5 ⊢
              omega
            have hIH : trimWs (collapseWs (d :: t)) =
                joinSp (chunks (d :: t)) := IH (d :: t).length hlen3 _ rfl
            have hchne : chunks (d :: t) ≠ [] := by
              rw [chunks_cons_nonws hd]
              simp
            have hmem : ∃ x ∈ collapseWs (d :: t), isJsWs x = false := by
              rw [collapseWs_cons_nonws hd]
              exact ⟨d, List.mem_cons_self d _, hd⟩
            rw [trimEnd_cons_space_of_mem hmem]
            have hEndWs : trimEnd (collapseWs (d :: t)) =
                trimWs (collapseWs (d :: t)) := by
              rw [collapseWs_cons_nonws hd, trimWs_eq_trimEnd_of_head hd]
            rw [hEndWs, hIH, joinSp_cons_ne hchne]

theorem normalize_eq_joinSp (s : List Char) :
    normalize s = joinSp (chunks (charNormalize s)) :=
  trimWs_collapseWs (charNormalize s)

theorem chunks_elem {t w : List Char} (hw : w ∈ chunks t) :
    w ≠ [] ∧ ∀ c ∈ w, isJsWs c = false ∧ c ∈ t := by
  generalize hn : t.length = n
  induction n using Nat.strong_induction_on generalizing t with
  | _ n IH =>
    rcases t with _ | ⟨c, rest⟩
    · rw [chunks_nil] at hw
      simp at hw
    · simp only [List.length_cons] at hn
      by_cases hc : isJsWs c = true
      · rw [chunks_cons_ws hc] at hw
        have h := IH rest.length (by omega) hw rfl
        exact ⟨h.1, fun x hx =>
          ⟨(h.2 x hx).1, List.mem_cons_of_mem _ (h.2 x hx).2⟩⟩
      · have hc' : isJsWs c = false := Bool.eq_false_iff.mpr hc
        rw [chunks_cons_nonws hc'] at hw
        rcases List.mem_cons.mp hw with rfl | hw'
        · refine ⟨by simp, ?_⟩
          intro x hx
          rcases List.mem_cons.mp hx with rfl | hx'
          · exact ⟨hc', List.mem_cons_self _ _⟩
          · refine ⟨?_, ?_⟩
            · have := List.mem_takeWhile_imp hx'
              simpa using this
            · exact List.mem_cons_of_mem _
                (List.takeWhile_subset _ hx')
        · have h4 : (rest.dropWhile (fun x => !isJsWs x)).length ≤
              rest.length := length_dropWhile_le _ rest
          have h := IH (rest.dropWhile (fun x => !isJsWs x)).length
            (by omega) hw' rfl
          exact ⟨h.1, fun x hx =>
            ⟨(h.2 x hx).1, List.mem_cons_of_mem _
              (List.dropWhile_subset _ (h.2 x hx).2)⟩⟩

theorem mem_charNormalize_keep {c : Char} {s : List Char}
    (h : c ∈ charNormalize s) : keepChar c = true := by
  rcases List.mem_map.mp h with ⟨x, _, hx⟩
  by_cases hk : keepChar x = true
  · rw [if_pos hk] at hx
    rw [← hx]
    exact hk
  · rw [if_neg hk] at hx
    rw [← hx]
    decide

theorem charNormalize_append (a b : List Char) :
    charNormalize (a ++ b) = charNormalize a ++ charNormalize b := by
  have hamp : ∀ (u v : List Char), ampSub (u ++ v) = ampSub u ++ ampSub v := by
    intro u v
    induction u with
    | nil => rfl
    | cons x u ih =>
      show (if x = '&' then _ else _) ++ ampSub (u ++ v) = _
      rw [ih]
      simp [ampSub]
  show punctToSpace (ampSub (lowerStr (a ++ b))) = _
  rw [show lowerStr (a ++ b) = lowerStr a ++ lowerStr b from
    List.map_append _ _ _, hamp]
  exact List.map_append _ _ _

theorem charNormalize_space_sep (a b : List Char) :
    charNormalize (a ++ ' ' :: b) =
      charNormalize a ++ ' ' :: charNormalize b := by
  rw [show a ++ ' ' :: b = a ++ [' '] ++ b by simp, charNormalize_append,
    charNormalize_append,
    show charNormalize [' '] = [' '] from by decide]
  simp

theorem charNormalize_fix {s : List Char}
    (h : ∀ c ∈ s, isLowerAlnum c = true ∨ c = ' ') :
    charNormalize s = s := by
  induction s with
  | nil => rfl
  | cons c rest ih =>
    have hc := h c (by simp)
    rw [show c :: rest = [c] ++ rest from rfl, charNormalize_append,
      ih (fun x hx => h x (by simp [hx]))]
    have h1 : lowerStr [c] = [c] := by
      simp [lowerStr, toLowerChar_fix hc]
    have h2 : ampSub [c] = [c] := by
      simp [ampSub, ne_amp_of_alnum_or_space hc]
    have h3 : punctToSpace [c] = [c] := by
      simp [punctToSpace, keep_of_alnum_or_space hc]
    show punctToSpace (ampSub (lowerStr [c])) ++ rest = c :: rest
    rw [h1, h2, h3]
    rfl

theorem chunks_append_ws {c : Char} (hc : isJsWs c = true) (a v : List Char) :
    chunks (a ++ c :: v) = chunks a ++ chunks v := by
  generalize hn : a.length = n
  induction n using Nat.strong_induction_on generalizing a with
  | _ n IH =>
    rcases a with _ | ⟨x, a'⟩
    · rw [List.nil_append, chunks_cons_ws hc, chunks_nil, List.nil_append]
    · simp only [List.length_cons] at hn
      by_cases hx : isJsWs x = true
      · rw [List.cons_append, chunks_cons_ws hx, chunks_cons_ws hx]
        exact IH a'.length (by omega) a' rfl
      · have hx' : isJsWs x = false := Bool.eq_false_iff.mpr hx
        rw [List.cons_append, chunks_cons_nonws hx', chunks_cons_nonws hx']
        by_cases hall : ∀ y ∈ a', (fun y => !isJsWs y) y = true
        · rw [List.takeWhile_append_of_pos hall,
            List.dropWhile_append_of_pos hall,
            List.takeWhile_cons_of_neg (by simp [hc]),
            List.dropWhile_cons_of_neg (by simp [hc]),
            List.takeWhile_eq_self_iff.mpr hall,
            List.dropWhile_eq_nil_iff.mpr hall,
            chunks_nil, chunks_cons_ws hc]
          simp
        · push_neg at hall
          rcases hall with ⟨y, hy, hyw⟩
          have hmem : ∃ z ∈ a', (fun y => !isJsWs y) z = false :=
            ⟨y, hy, by simpa using hyw⟩
          rw [takeWhile_append_of_mem hmem, dropWhile_append_of_mem hmem]
          have hlen : (a'.dropWhile (fun y => !isJsWs y)).length < n := by
            have := length_dropWhile_le (fun y => !isJsWs y) a'
            omega
          rw [IH (a'.dropWhile (fun y => !isJsWs y)).length hlen _ rfl]
          simp

theorem chunks_eq_single {w : List Char} (hne : w ≠ [])
    (h : ∀ c ∈ w, isJsWs c = false) : chunks w = [w] := by
  rcases w with _ | ⟨x, t⟩
  · exact absurd rfl hne
  · rw [chunks_cons_nonws (h x (by simp))]
    have hall : ∀ y ∈ t, (fun y => !isJsWs y) y = true := by
      intro y hy
      simp [h y (by simp [hy])]
    rw [List.takeWhile_eq_self_iff.mpr hall,
      List.dropWhile_eq_nil_iff.mpr hall, chunks_nil]

theorem chunks_joinSp {L : List (List Char)}
    (h : ∀ w ∈ L, w ≠ [] ∧ ∀ c ∈ w, isJsWs c = false) :
    chunks (joinSp L) = L := by
  induction L with
  | nil => exact chunks_nil
  | cons w L ih =>
    rcases L with _ | ⟨v, L'⟩
    · exact chunks_eq_single (h w (by simp)).1 (h w (by simp)).2
    · rw [joinSp_cons_ne (by simp), chunks_append_ws (by decide),
        chunks_eq_single (h w (by simp)).1 (h w (by simp)).2,
        ih (fun u hu => h u (by simp [hu]))]
      rfl

theorem mem_joinSp {c : Char} {L : List (List Char)} (h : c ∈ joinSp L) :
    (∃ w ∈ L, c ∈ w) ∨ c = ' ' := by
  induction L with
  | nil => simp [joinSp] at h
  | cons w L ih =>
    rcases L with _ | ⟨v, L'⟩
    · exact Or.inl ⟨w, by simp, h⟩
    · rw [joinSp_cons_ne (by simp)] at h
      rcases List.mem_append.mp h with h1 | h2
      · exact Or.inl ⟨w, by simp, h1⟩
      · rcases List.mem_cons.mp h2 with rfl | h3
        · exact Or.inr rfl
        · rcases ih h3 with ⟨u, hu, hcu⟩ | hsp
          · exact Or.inl ⟨u, by simp [hu], hcu⟩
          · exact Or.inr hsp

theorem joinSp_ne_nil {L : List (List Char)} (hL : L ≠ [])
    (h : ∀ w ∈ L, w ≠ []) : joinSp L ≠ [] := by
  rcases L with _ | ⟨w, L'⟩
  · exact absurd rfl hL
  · rcases L' with _ | ⟨v, L''⟩
    · exact h w (by simp)
    · rw [joinSp_cons_ne (by simp)]
      rcases w with _ | ⟨x, t⟩
      · exact absurd rfl (h [] (by simp))
      · simp

theorem joinSp_head {L : List (List Char)}
    (h : ∀ w ∈ L, w ≠ [] ∧ ∀ c ∈ w, isJsWs c = false) :
    ∀ y ∈ (joinSp L).head?, isJsWs y = false := by
  intro y hy
  rcases L with _ | ⟨w, L'⟩
  · simp [joinSp] at hy
  · have hw := h w (by simp)
    rcases w with _ | ⟨x, t⟩
    · exact absurd rfl hw.1
    · have hx : (joinSp ((x :: t) :: L')).head? = some x := by
        rcases L' with _ | ⟨v, L''⟩
        · rfl
        · rw [joinSp_cons_ne (by simp)]
          rfl
      rw [hx] at hy
      simp only [Option.mem_def, Option.some.injEq] at hy
      rw [← hy]
      exact hw.2 x (by simp)

theorem joinSp_getLast {L : List (List Char)}
    (h : ∀ w ∈ L, w ≠ [] ∧ ∀ c ∈ w, isJsWs c = false) :
    ∀ y ∈ (joinSp L).getLast?, isJsWs y = false := by
  induction L with
  | nil =>
    intro y hy
    simp [joinSp] at hy
  | cons w L ih =>
    intro y hy
    rcases L with _ | ⟨v, L'⟩
    · exact (h w (by simp)).2 y (List.mem_of_mem_getLast? hy)
    · rw [joinSp_cons_ne (by simp)] at hy
      have hne : joinSp (v :: L') ≠ [] :=
        joinSp_ne_nil (by simp) (fun u hu => (h u (by simp [hu])).1)
      rcases hgl : (joinSp (v :: L')).getLast? with _ | z
      · exact absurd (List.getLast?_eq_none_iff.mp hgl) hne
      · have hX : (' ' :: joinSp (v :: L')).getLast? = some z := by
          rw [show ' ' :: joinSp (v :: L') = [' '] ++ joinSp (v :: L')
            from rfl, List.getLast?_append, hgl]
          rfl
        have hy' : z = y := by
          rw [List.getLast?_append, hX] at hy
          simpa using hy
        subst hy'
        exact ih (fun u hu => h u (by simp [hu])) z (by rw [hgl]; rfl)

theorem chain'_of_nonws {w : List Char} (h : ∀ c ∈ w, isJsWs c = false) :
    List.Chain' (fun a b => ¬(a = ' ' ∧ b = ' ')) w := by
  induction w with
  | nil => simp
  | cons x t ih =>
    rw [List.chain'_cons']
    refine ⟨?_, ih (fun c hc => h c (by simp [hc]))⟩
    intro y _ hcon
    have hx := h x (by simp)
    rw [hcon.1] at hx
    exact absurd hx (by decide)

theorem joinSp_chain {L : List (List Char)}
    (h : ∀ w ∈ L, w ≠ [] ∧ ∀ c ∈ w, isJsWs c = false) :
    List.Chain' (fun a b => ¬(a = ' ' ∧ b = ' ')) (joinSp L) := by
  induction L with
  | nil => simp [joinSp]
  | cons w L ih =>
    have hw := h w (by simp)
    have hcw := chain'_of_nonws hw.2
    rcases L with _ | ⟨v, L'⟩
    · exact hcw
    · rw [joinSp_cons_ne (by simp), List.chain'_append]
      refine ⟨hcw, ?_, ?_⟩
      · rw [List.chain'_cons']
        refine ⟨?_, ih (fun u hu => h u (by simp [hu]))⟩
        intro y hy hcon
        have hyn := joinSp_head (fun u hu => h u (by simp [hu])) y hy
        rw [hcon.2] at hyn
        exact absurd hyn (by decide)
      · intro x hx y _ hcon
        have hxw := hw.2 x (List.mem_of_mem_getLast? hx)
        rw [hcon.1] at hxw
        exact absurd hxw (by decide)

theorem hasSubstring_iff {needle hay : List Char} :
    hasSubstring needle hay = true ↔ needle <:+: hay := by
  induction hay with
  | nil =>
    show needle.isPrefixOf [] = true ↔ _
    simp
  | cons c t ih =>
    show (needle.isPrefixOf (c :: t) || hasSubstring needle t) = true ↔ _
    rw [Bool.or_eq_true, ih, List.infix_cons_iff]
    simp

theorem chunks_charNormalize_shape (s : List Char) :
    ∀ w ∈ chunks (charNormalize s), w ≠ [] ∧ ∀ c ∈ w, isJsWs c = false := by
  intro w hw
  exact ⟨(chunks_elem hw).1, fun c hc => ((chunks_elem hw).2 c hc).1⟩

theorem chunks_normalize (s : List Char) :
    chunks (normalize s) = chunks (charNormalize s) := by
  rw [normalize_eq_joinSp, chunks_joinSp (chunks_charNormalize_shape s)]

/-- Claim C7: normalization is idempotent; for every string s,
normalize (normalize s) equals normalize s. -/
theorem c7_normalize_idempotent (s : List Char) :
    normalize (normalize s) = normalize s := by
  have hL := chunks_charNormalize_shape s
  have halnum : ∀ w ∈ chunks (charNormalize s), ∀ c ∈ w,
      isLowerAlnum c = true := by
    intro w hw c hc
    have h1 := (chunks_elem hw).2 c hc
    exact alnum_of_keep_not_ws (mem_charNormalize_keep h1.2) h1.1
  have hchars : ∀ c ∈ joinSp (chunks (charNormalize s)),
      isLowerAlnum c = true ∨ c = ' ' := by
    intro c hc
    rcases mem_joinSp hc with ⟨w, hw, hcw⟩ | hsp
    · exact Or.inl (halnum w hw c hcw)
    · exact Or.inr hsp
  rw [normalize_eq_joinSp s, normalize_eq_joinSp, charNormalize_fix hchars,
    chunks_joinSp hL]

/-- Claim C9: for every (possibly absent) input, the normalizer's output
consists only of lowercase letters, digits and single spaces, with no
leading space, no trailing space and no two consecutive spaces. -/
theorem c9_normalize_output_shape (s : Option (List Char)) :
    (∀ c ∈ normalizeOpt s, isLowerAlnum c = true ∨ c = ' ') ∧
    (normalizeOpt s).head? ≠ some ' ' ∧
    (normalizeOpt s).getLast? ≠ some ' ' ∧
    List.Chain' (fun a b => ¬(a = ' ' ∧ b = ' ')) (normalizeOpt s) := by
  have hL := chunks_charNormalize_shape (s.getD [])
  have halnum : ∀ w ∈ chunks (charNormalize (s.getD [])), ∀ c ∈ w,
      isLowerAlnum c = true := by
    intro w hw c hc
    have h1 := (chunks_elem hw).2 c hc
    exact alnum_of_keep_not_ws (mem_charNormalize_keep h1.2) h1.1
  have hEq : normalizeOpt s = joinSp (chunks (charNormalize (s.getD []))) :=
    normalize_eq_joinSp _
  rw [hEq]
  refine ⟨?_, ?_, ?_, joinSp_chain hL⟩
  · intro c hc
    rcases mem_joinSp hc with ⟨w, hw, hcw⟩ | hsp
    · exact Or.inl (halnum w hw c hcw)
    · exact Or.inr hsp
  · intro hcon
    have h := joinSp_head hL ' ' (by rw [hcon]; rfl)
    exact absurd h (by decide)
  · intro hcon
    have h := joinSp_getLast hL ' ' (by rw [hcon]; rfl)
    exact absurd h (by decide)

/-- Claim C6 (counterexample): the normalizer does not delete punctuation;
"self-care" normalizes to the two-token string "self care", not to
"selfcare". -/
theorem c6_counterexample :
    normalize "self-care".toList = "self care".toList ∧
    normalize "self-care".toList ≠ "selfcare".toList := by
  constructor
  · decide
  · decide

/-- Claim C6 (amended): after the ampersand substitution and lowercasing,
every character outside the kept class `[a-z0-9\s]` is replaced by a space
rather than deleted: normalizing a string with such a character at any
position gives the same result as normalizing the string with that
character replaced by a space (so "self-care" yields the two tokens
"self care", not "selfcare"). -/
theorem c6_punct_becomes_space (c : Char) (xs ys : List Char)
    (h1 : toLowerChar c = c) (h2 : keepChar c = false) (h3 : c ≠ '&') :
    normalize (xs ++ c :: ys) = normalize (xs ++ ' ' :: ys) := by
  have hc1 : charNormalize [c] = [' '] := by
    show punctToSpace (ampSub (lowerStr [c])) = [' ']
    rw [show lowerStr [c] = [c] from by simp [lowerStr, h1],
      show ampSub [c] = [c] from by simp [ampSub, h3]]
    simp [punctToSpace, h2]
  have key : charNormalize (xs ++ c :: ys) =
      charNormalize (xs ++ ' ' :: ys) := by
    rw [show xs ++ c :: ys = xs ++ [c] ++ ys by simp,
      show xs ++ ' ' :: ys = xs ++ [' '] ++ ys by simp,
      charNormalize_append, charNormalize_append, charNormalize_append,
      charNormalize_append, hc1,
      show charNormalize [' '] = [' '] from by decide]
  show trimWs (collapseWs (charNormalize (xs ++ c :: ys))) = _
  rw [key]
  rfl

/-- Witness for C6: the hyphen is such a character, and "self-care"
normalizes like "self care". -/
theorem c6_witness :
    (toLowerChar '-' = '-' ∧ keepChar '-' = false ∧ '-' ≠ '&') ∧
    normalize ("self".toList ++ '-' :: "care".toList) =
      normalize ("self".toList ++ ' ' :: "care".toList) :=
  ⟨by decide,
    c6_punct_becomes_space '-' "self".toList "care".toList
      (by decide) (by decide) (by decide)⟩

theorem chunks_append_space (a v : List Char) :
    chunks (a ++ ' ' :: v) = chunks a ++ chunks v :=
  chunks_append_ws (by decide) a v

/-- Claim C5 (counterexample): the combined search text of the part 007
matcher contains the categorical type field and not the tags: for an event
with title "t", type "workshop" and tag "yoga" the text is "t workshop",
not the title-description-organization-tags concatenation "t yoga". -/
theorem c5_counterexample :
    Feed007.searchText evTagged = "t workshop".toList ∧
    Feed007.searchText evTagged ≠ "t yoga".toList ∧
    hasSubstring "workshop".toList (Feed007.searchText evTagged) = true ∧
    hasSubstring "yoga".toList (Feed007.searchText evTagged) = false := by
  decide

/-- Claim C5 (amended): the combined search text of the part 007 matcher
is the one-string normalization of title, stripped description,
categorical type field and organization, in that order: its word sequence
is the concatenation of the word sequences of those four normalized
fields.  Tags are not part of it, while the type field is (the type field
is additionally normalized separately for the direct type check). -/
theorem c5_search_text_fields (ev : Event) :
    chunks (Feed007.searchText ev) =
      chunks (normalize ev.title) ++
      chunks (normalize (stripHTML ev.description)) ++
      chunks (normalizeOpt ev.event_type) ++
      chunks (normalizeOpt ev.organization) := by
  simp only [Feed007.searchText, List.cons_append, List.append_assoc,
    chunks_normalize, normalizeOpt]
  rw [charNormalize_space_sep, charNormalize_space_sep,
    charNormalize_space_sep, chunks_append_space, chunks_append_space,
    chunks_append_space]

/-- Claim C2: the relevance decision of the part 007 feed with an empty
interest list accepts every upcoming event: the selection is the upcoming
list unchanged. -/
theorem c2_empty_interests_accepts_all (upcoming : List Event)
    (interests : List (List Char)) (h : interests = []) :
    Feed007.selectFeedEvents upcoming interests = upcoming := by
  subst h
  rfl

/-- Witness for C2 at a concrete upcoming list. -/
theorem c2_witness :
    (([] : List (List Char)) = []) ∧
    Feed007.selectFeedEvents [emptyEvent] [] = [emptyEvent] :=
  ⟨rfl, c2_empty_interests_accepts_all [emptyEvent] [] rfl⟩

/-- Claim C3 (counterexample): with an empty categorical type field the
direct-type containment can hold (the empty normalized type contains the
empty normalized label "@@@" as a substring) while the matcher still
answers false, because the code first requires the normalized type to be
truthy (non-empty). -/
theorem c3_counterexample :
    (["@@@".toList] ≠ ([] : List (List Char))) ∧
    normalize "@@@".toList <:+: Feed007.typeNorm emptyEvent ∧
    Feed007.matchesByInterests emptyEvent ["@@@".toList] = false := by
  refine ⟨by decide, ?_, by decide⟩
  show normalize "@@@".toList <:+: Feed007.typeNorm emptyEvent
  rw [show normalize "@@@".toList = [] from by decide]
  exact List.nil_infix

/-- Claim C3 (amended): for a non-empty interest collection, if the
normalized categorical type field is non-empty and contains the normalized
text of some label of the collection as a substring, then the part 007
matcher declares the event relevant. -/
theorem c3_type_match_relevant (ev : Event) (interests : List (List Char))
    (label : List Char) (hmem : label ∈ interests)
    (hne : Feed007.typeNorm ev ≠ [])
    (hinf : normalize label <:+: Feed007.typeNorm ev) :
    Feed007.matchesByInterests ev interests = true := by
  simp only [Feed007.matchesByInterests, List.any_eq_true]
  refine ⟨label, hmem, ?_⟩
  rw [Bool.or_eq_true]
  left
  rw [Bool.and_eq_true]
  exact ⟨by simp [hne], hasSubstring_iff.mpr hinf⟩

/-- Witness for C3 at a concrete event whose type field equals the
wellness label. -/
theorem c3_witness :
    ("Wellness & Mental Health".toList ∈
        ["Wellness & Mental Health".toList] ∧
      Feed007.typeNorm evWellnessType ≠ [] ∧
      normalize "Wellness & Mental Health".toList <:+:
        Feed007.typeNorm evWellnessType) ∧
    Feed007.matchesByInterests evWellnessType
      ["Wellness & Mental Health".toList] = true :=
  ⟨⟨by decide, by decide, by decide⟩,
    c3_type_match_relevant evWellnessType
      ["Wellness & Mental Health".toList] "Wellness & Mental Health".toList
      (by decide) (by decide) (by decide)⟩

/-- Claim C1 (counterexample): the part 008 matcher uses substring
containment, not per-word membership: it declares the event titled
"Smart City Tour" relevant to "Arts & Creative Activities" — the keyword
"art" occurs inside the word "smart" — although no keyword of that label
has all of its normalized words in the word list of the normalized
combined search text. -/
theorem c1_counterexample :
    Feed008.matchesKeywords evSmart
      ["Arts & Creative Activities".toList] = true ∧
    ∀ kw ∈ Feed008.keywordsFor "Arts & Creative Activities".toList,
      ¬ ∀ w ∈ splitWs (normalize kw),
        w ∈ splitWs (normalize (Feed008.searchText evSmart)) := by
  decide

/-- Claim C1 (amended): the part 007 matcher declares an event relevant
exactly when some interest of the list either directly type-matches (the
normalized type field is non-empty and contains the normalized interest
as a substring) or has a taxonomy keyword all of whose normalized words
are members of the word list of the normalized combined search text
(per-word membership); the part 008 revision instead declares an event
relevant exactly when some keyword of some interest, lowercased, occurs
as a substring of the lowercased combined search text. -/
theorem c1_matcher_characterization :
    (∀ (ev : Event) (interests : List (List Char)),
      Feed007.matchesByInterests ev interests = true ↔
        ∃ interest ∈ interests,
          (Feed007.typeNorm ev ≠ [] ∧
            normalize interest <:+: Feed007.typeNorm ev) ∨
          ∃ kw ∈ Feed007.keywordsFor interest,
            ∀ w ∈ splitWs (normalize kw),
              w ∈ splitWs (Feed007.searchText ev)) ∧
    (∀ (ev : Event) (interests : List (List Char)),
      Feed008.matchesKeywords ev interests = true ↔
        ∃ interest ∈ interests,
          ∃ kw ∈ Feed008.keywordsFor interest,
            lowerStr kw <:+: Feed008.searchText ev) := by
  constructor
  · intro ev interests
    simp only [Feed007.matchesByInterests, List.any_eq_true,
      Bool.or_eq_true, Bool.and_eq_true, List.all_eq_true,
      Bool.not_eq_true', List.isEmpty_eq_false, hasSubstring_iff,
      List.contains, List.elem_eq_mem, decide_eq_true_eq]
  · intro ev interests
    simp only [Feed008.matchesKeywords, List.any_eq_true, hasSubstring_iff]

/-- Claim C10: both matchers read only the title, description, type and
organization fields; two events agreeing there get the same verdict for
every interest list. -/
theorem c10_matcher_field_dependence (ev1 ev2 : Event)
    (interests : List (List Char))
    (h1 : ev1.title = ev2.title) (h2 : ev1.description = ev2.description)
    (h3 : ev1.event_type = ev2.event_type)
    (h4 : ev1.organization = ev2.organization) :
    Feed007.matchesByInterests ev1 interests =
      Feed007.matchesByInterests ev2 interests ∧
    Feed008.matchesKeywords ev1 interests =
      Feed008.matchesKeywords ev2 interests := by
  constructor
  · simp only [Feed007.matchesByInterests, Feed007.searchText,
      Feed007.typeNorm, normalizeOpt, h1, h2, h3, h4]
  · simp only [Feed008.matchesKeywords, Feed008.searchText, h1, h2, h3, h4]

/-- Witness for C10: two events equal on the four matched fields and
different in id, location, date, deadline, image, prize, tags and link. -/
theorem c10_witness :
    (evYogaA.title = evYogaB.title ∧
      evYogaA.description = evYogaB.description ∧
      evYogaA.event_type = evYogaB.event_type ∧
      evYogaA.organization = evYogaB.organization) ∧
    (Feed007.matchesByInterests evYogaA
        ["Wellness & Mental Health".toList] =
      Feed007.matchesByInterests evYogaB
        ["Wellness & Mental Health".toList] ∧
     Feed008.matchesKeywords evYogaA ["Wellness & Mental Health".toList] =
      Feed008.matchesKeywords evYogaB ["Wellness & Mental Health".toList]) :=
  ⟨⟨rfl, rfl, rfl, rfl⟩,
    c10_matcher_field_dependence evYogaA evYogaB
      ["Wellness & Mental Health".toList] rfl rfl rfl rfl⟩

/-- Claim C4 (counterexample): with identical (empty) text fields, the
event dated exactly at the current time scores strictly less than the
event dated 2·10^12 ms in the future, although it is closer to the
current time: the recency bonus grows with the date instead of rewarding
imminence. -/
theorem c4_counterexample :
    |(0 : Rat) - 0| ≤ |(2000000000000 : Rat) - 0| ∧
    Feed006.relevanceScore 0 evDate0 [] <
      Feed006.relevanceScore 0 evDateFar [] := by
  constructor
  · norm_num
  · show (0 : Rat) + Feed006.recencyBonus 0 0 <
      0 + Feed006.recencyBonus 0 2000000000000
    unfold Feed006.recencyBonus
    norm_num

/-- Claim C4 (amended): with the four text fields equal and both dates
parseable, the relevance score of the part 006 scorer is monotone
non-decreasing in the event date — the later-dated event scores at least
as much — and the recency bonus is exactly zero once the event lies
10^12 ms or more in the past (while it grows without bound for far-future
events rather than approaching zero). -/
theorem c4_score_monotone_in_date (now : Rat) (ev1 ev2 : Event)
    (interests : List (List Char)) (d1 d2 : Rat)
    (h1 : ev1.title = ev2.title) (h2 : ev1.description = ev2.description)
    (h3 : ev1.event_type = ev2.event_type)
    (h4 : ev1.organization = ev2.organization)
    (hd1 : ev1.date = some d1) (hd2 : ev2.date = some d2)
    (hle : d1 ≤ d2) :
    Feed006.relevanceScore now ev1 interests ≤
      Feed006.relevanceScore now ev2 interests ∧
    (1000000000000 ≤ now - d1 →
      Feed006.relevanceScore now ev1 interests =
        Feed006.keywordScore ev1 interests) := by
  have hks : Feed006.keywordScore ev1 interests =
      Feed006.keywordScore ev2 interests := by
    simp only [Feed006.keywordScore, Feed006.searchText, h1, h2, h3, h4]
  constructor
  · simp only [Feed006.relevanceScore, hd1, hd2, hks]
    apply add_le_add_left
    unfold Feed006.recencyBonus
    refine (div_le_div_iff_of_pos_right (by norm_num)).mpr ?_
    apply max_le_max (le_refl 0)
    linarith
  · intro hpast
    simp only [Feed006.relevanceScore, hd1]
    unfold Feed006.recencyBonus
    rw [show max (0 : Rat) (1000000000000 - (now - d1)) = 0 from
      max_eq_left (by linarith), zero_div, add_zero]

/-- Witness for C4: two empty events dated 0 and 5, scored at time 0. -/
theorem c4_witness :
    (evDate0.title = evDate5.title ∧
      evDate0.description = evDate5.description ∧
      evDate0.event_type = evDate5.event_type ∧
      evDate0.organization = evDate5.organization ∧
      evDate0.date = some 0 ∧ evDate5.date = some 5 ∧ (0 : Rat) ≤ 5) ∧
    (Feed006.relevanceScore 0 evDate0 [] ≤
        Feed006.relevanceScore 0 evDate5 [] ∧
      (1000000000000 ≤ (0 : Rat) - 0 →
        Feed006.relevanceScore 0 evDate0 [] =
          Feed006.keywordScore evDate0 [])) :=
  ⟨⟨rfl, rfl, rfl, rfl, rfl, rfl, by norm_num⟩,
    c4_score_monotone_in_date 0 evDate0 evDate5 [] 0 5
      rfl rfl rfl rfl rfl rfl (by norm_num)⟩

/-- Claim C8: the core operations are total: normalizing an absent string
gives the empty string, stripping an absent string gives the empty
string, a label absent from the taxonomy contributes no keywords (the
lookup falls back to the empty list), and the matcher returns one of the
two booleans on every input. -/
theorem c8_totality :
    normalizeOpt none = [] ∧
    stripHTML none = [] ∧
    (∀ l, Feed007.CATEGORY_KEYWORDS.lookup l = none →
      Feed007.keywordsFor l = []) ∧
    (∀ (ev : Event) (interests : List (List Char)),
      Feed007.matchesByInterests ev interests = true ∨
      Feed007.matchesByInterests ev interests = false) := by
  refine ⟨rfl, rfl, ?_, ?_⟩
  · intro l h
    simp [Feed007.keywordsFor, h]
  · intro ev interests
    cases hb : Feed007.matchesByInterests ev interests
    · exact Or.inr rfl
    · exact Or.inl rfl

/-- Witness for C8: the label "Chess" is not in the taxonomy and
contributes no keywords. -/
theorem c8_witness :
    Feed007.CATEGORY_KEYWORDS.lookup "Chess".toList = none ∧
    Feed007.keywordsFor "Chess".toList = [] :=
  ⟨by decide, c8_totality.2.2.1 "Chess".toList (by decide)⟩

end StarvIn
